import Mathlib

/-!
Shallow embedding of the Quantum-Hamiltonian-Simulation notebooks.

The repository consists of two notebooks: one implementing Grover–Rudolph
wavefunction preparation (`GRA`) and one with Kitaev–Webb helpers
(`binary_approx`, `f`, `angle`, and the unfinished `KWA`).  The classical
pre-computation of `GRA` (per-interval integrals, conditional masses and
rotation angles) is embedded over `ℝ`, with `integrate.quad(dist, lo, hi)[0]`
modelled as the interval integral `∫ x in lo..hi, dist x`.  The circuit
construction is embedded as a list of gate instructions.
-/

open MeasureTheory

namespace QHS

/-- Gate-level instructions appended to the Qiskit `QuantumCircuit` by the
notebook code: `rx θ q` is `qc.rx(θ, q)`, `x q` is `qc.x(q)`, `mcrx θ cs t`
is `qc.mcrx(θ, cs, t)` with control list `cs` and target `t`, `swap p q` is
`qc.swap(p, q)`, and `barrier` is `qc.barrier()`. -/
inductive Gate where
  | rx (theta : ℝ) (q : ℕ)
  | x (q : ℕ)
  | mcrx (theta : ℝ) (controls : List ℕ) (target : ℕ)
  | swap (q1 q2 : ℕ)
  | barrier

/-- True on the `rx` and `mcrx` instructions: the rotation gates of `GRA`. -/
def isRotGate : Gate → Bool
  | .rx _ _ => true
  | .mcrx _ _ _ => true
  | _ => false

/-- True exactly on the `barrier` instruction (not a gate). -/
def isBarrierInstr : Gate → Bool
  | .barrier => true
  | _ => false

/-- The X-gate loop of `GRA`: `for j in range(0, m): if i & int(2**(j)) == False:
qc.x(m - j - 1)`.  One `x` gate is emitted for each `j < m` whose bit of `i`
is clear. -/
def xLoop (m i : ℕ) : List Gate :=
  (List.range m).filterMap fun j =>
    if i &&& 2 ^ j = 0 then some (Gate.x (m - j - 1)) else none

/-- One iteration of the level loop `for m in range(1, n)` of `GRA`:
`qc.barrier()`, then for each `i in range(0, 2**m)` the X-gate loop, the
multi-controlled rotation `qc.mcrx(2*T[m][i], control_qubits, qr[m])` with
`control_qubits = [qr[0], ..., qr[m-1]]`, and the X-gate loop again. -/
def levelBlock (T : ℕ → ℕ → ℝ) (m : ℕ) : List Gate :=
  Gate.barrier ::
    (List.range (2 ^ m)).flatMap fun i =>
      xLoop m i ++ [Gate.mcrx (2 * T m i) (List.range m) m] ++ xLoop m i

/-- The instruction sequence of `GRA` before the final swaps:
`qc.rx(2*T[0][0], 0)` followed by the level blocks for `m = 1, ..., n-1`. -/
def graBody (T : ℕ → ℕ → ℝ) (n : ℕ) : List Gate :=
  Gate.rx (2 * T 0 0) 0 :: (List.range' 1 (n - 1)).flatMap (levelBlock T)

/-- The final swap section of `GRA`: `if n % 2 == 0` then
`qc.swap(i, n-i-1)` for `i in range(0, n//2)` else the same for
`i in range(0, (n-1)//2)`. -/
def graSwaps (n : ℕ) : List Gate :=
  if n % 2 = 0 then (List.range (n / 2)).map fun i => Gate.swap i (n - i - 1)
  else (List.range ((n - 1) / 2)).map fun i => Gate.swap i (n - i - 1)

noncomputable section

/-- The integration bound `den_LB = a + (R / 2**m) * i` of `GRA` (with
`R = b - a`); the code sets `num_LB` to the same value. -/
def den_LB (a b : ℝ) (m i : ℕ) : ℝ := a + (b - a) / 2 ^ m * i

/-- The integration bound `den_UB = a + (R / 2**m) * (i+1)` of `GRA`. -/
def den_UB (a b : ℝ) (m i : ℕ) : ℝ := a + (b - a) / 2 ^ m * (i + 1)

/-- The integration bound `num_UB = num_LB + R / 2**(m+1)` of `GRA`. -/
def num_UB (a b : ℝ) (m i : ℕ) : ℝ := den_LB a b m i + (b - a) / 2 ^ (m + 1)

/-- The probability entry `p = integrate.quad(dist, den_LB, den_UB)[0]`
computed by `GRA` at node `(m, i)`. -/
def P_node (dist : ℝ → ℝ) (a b : ℝ) (m i : ℕ) : ℝ :=
  ∫ x in den_LB a b m i..den_UB a b m i, dist x

/-- The conditional-mass entry
`f = integrate.quad(dist, num_LB, num_UB)[0] / integrate.quad(dist, den_LB, den_UB)[0]`
computed by `GRA` at node `(m, i)`. -/
def F_node (dist : ℝ → ℝ) (a b : ℝ) (m i : ℕ) : ℝ :=
  (∫ x in den_LB a b m i..num_UB a b m i, dist x) /
    ∫ x in den_LB a b m i..den_UB a b m i, dist x

/-- The angle entry `t = arccos(sqrt(f))` computed by `GRA` at node `(m, i)`. -/
def T_node (dist : ℝ → ℝ) (a b : ℝ) (m i : ℕ) : ℝ :=
  Real.arccos (Real.sqrt (F_node dist a b m i))

/-- The table `P` built by `GRA`: for `m in range(0, n+1)` a row of the
`2**m` node probabilities. -/
def GRA_P (dist : ℝ → ℝ) (a b : ℝ) (n : ℕ) : List (List ℝ) :=
  (List.range (n + 1)).map fun m => (List.range (2 ^ m)).map fun i => P_node dist a b m i

/-- The table `F` built by `GRA`. -/
def GRA_F (dist : ℝ → ℝ) (a b : ℝ) (n : ℕ) : List (List ℝ) :=
  (List.range (n + 1)).map fun m => (List.range (2 ^ m)).map fun i => F_node dist a b m i

/-- The table `T` built by `GRA`. -/
def GRA_T (dist : ℝ → ℝ) (a b : ℝ) (n : ℕ) : List (List ℝ) :=
  (List.range (n + 1)).map fun m => (List.range (2 ^ m)).map fun i => T_node dist a b m i

/-- The function `GRA(n, dist, a, b)`: it returns the pair `(qc, P)` of the
constructed circuit (body followed by the final swaps, with the angles taken
from the `T` table) and the probability table. -/
def GRA (n : ℕ) (dist : ℝ → ℝ) (a b : ℝ) : List Gate × List (List ℝ) :=
  (graBody (T_node dist a b) n ++ graSwaps n, GRA_P dist a b n)

/-- The loop of `binary_approx`, one constructor step per iteration
`i in range(1, k+1)`: `bit = 1 if n > total + 1/2**i else 0`, `a.append(bit)`,
`total += bit/2**i`.  The first argument of the recursion is the remaining
iteration count, the second the current index `i`. -/
def binApproxGo (n : ℝ) : ℕ → ℕ → List ℕ → ℝ → List ℕ × ℝ
  | 0, _, acc, total => (acc, total)
  | fuel + 1, i, acc, total =>
    let bit : ℕ := if n > total + 1 / 2 ^ i then 1 else 0
    binApproxGo n fuel (i + 1) (acc ++ [bit]) (total + bit / 2 ^ i)

/-- The function `binary_approx(n, k)`: starting from `a = []`, `total = 0`
it runs the bit loop for `i = 1, ..., k` and returns `(a, total)`. -/
def binary_approx (n : ℝ) (k : ℕ) : List ℕ × ℝ :=
  binApproxGo n k 1 [] 0

/-- The normalization helper
`f(mu, sigma, n) = np.sum(np.exp((-(np.arange(-n, n+1, 1) - mu)**2) / float(sigma**2)))`
of the Kitaev–Webb notebook. -/
def f (mu sigma : ℝ) (n : ℕ) : ℝ :=
  ∑ j ∈ Finset.Icc (-(n : ℤ)) (n : ℤ), Real.exp (-((j : ℝ) - mu) ^ 2 / sigma ^ 2)

/-- The helper `angle(mu, sigma, n) = np.arccos(math.sqrt(f(mu/2, sigma/2, n) / f(mu, sigma, n)))`. -/
def angle (mu sigma : ℝ) (n : ℕ) : ℝ :=
  Real.arccos (Real.sqrt (f (mu / 2) (sigma / 2) n / f mu sigma n))

/-- The helper `angle` applied at its default truncation bound `n = 1000`. -/
def angleDefault (mu sigma : ℝ) : ℝ := angle mu sigma 1000

/-- The function `KWA(mu, sigma, k, N)` of the notebook: its body is a
docstring only, so it builds nothing and returns `None`. -/
def KWA (mu sigma : ℝ) (k N : ℕ) : Option (List Gate) := none

end

theorem den_LB_eq (a b : ℝ) (m i : ℕ) : den_LB a b m i = a + (b - a) * i / 2 ^ m := by
  unfold den_LB
  ring

theorem den_UB_eq (a b : ℝ) (m i : ℕ) : den_UB a b m i = a + (b - a) * (i + 1) / 2 ^ m := by
  unfold den_UB
  ring

theorem num_UB_eq (a b : ℝ) (m i : ℕ) :
    num_UB a b m i = a + (b - a) * i / 2 ^ m + (b - a) / 2 ^ (m + 1) := by
  unfold num_UB den_LB
  ring

theorem rangeMap_getD {α : Type} (d : α) (g : ℕ → α) (k m : ℕ) (hm : m < k) :
    ((List.range k).map g).getD m d = g m := by
  rw [List.getD_eq_getElem _ d (by simpa using hm)]
  simp

/-- C1: for every distribution, bounds `a < b` and qubit count `n`, the
tables built by `GRA` have `n+1` levels of lengths `2^m`, and at level `m`,
index `i`: `P[m][i]` is the integral of `dist` over
`[a + R*i/2^m, a + R*(i+1)/2^m]` (`R = b - a`), `F[m][i]` is the integral
over the left half-interval divided by the integral over the whole interval,
and `T[m][i] = arccos(sqrt(F[m][i]))`. -/
theorem claim_C1 (dist : ℝ → ℝ) (a b : ℝ) (hab : a < b) (n : ℕ) :
    (GRA_P dist a b n).length = n + 1 ∧
    (GRA_F dist a b n).length = n + 1 ∧
    (GRA_T dist a b n).length = n + 1 ∧
    ∀ m, m ≤ n →
      ((GRA_P dist a b n).getD m []).length = 2 ^ m ∧
      ((GRA_F dist a b n).getD m []).length = 2 ^ m ∧
      ((GRA_T dist a b n).getD m []).length = 2 ^ m ∧
      ∀ i, i < 2 ^ m →
        ((GRA_P dist a b n).getD m []).getD i 0 =
          ∫ x in (a + (b - a) * i / 2 ^ m)..(a + (b - a) * (i + 1) / 2 ^ m), dist x ∧
        ((GRA_F dist a b n).getD m []).getD i 0 =
          (∫ x in
              (a + (b - a) * i / 2 ^ m)..(a + (b - a) * i / 2 ^ m + (b - a) / 2 ^ (m + 1)),
              dist x) /
            ∫ x in (a + (b - a) * i / 2 ^ m)..(a + (b - a) * (i + 1) / 2 ^ m), dist x ∧
        ((GRA_T dist a b n).getD m []).getD i 0 =
          Real.arccos (Real.sqrt
            ((∫ x in
                (a + (b - a) * i / 2 ^ m)..(a + (b - a) * i / 2 ^ m + (b - a) / 2 ^ (m + 1)),
                dist x) /
              ∫ x in (a + (b - a) * i / 2 ^ m)..(a + (b - a) * (i + 1) / 2 ^ m), dist x)) := by
  have hlenP : (GRA_P dist a b n).length = n + 1 := by simp [GRA_P]
  have hlenF : (GRA_F dist a b n).length = n + 1 := by simp [GRA_F]
  have hlenT : (GRA_T dist a b n).length = n + 1 := by simp [GRA_T]
  refine ⟨hlenP, hlenF, hlenT, fun m hm => ?_⟩
  have hm' : m < n + 1 := by omega
  have hrowP : (GRA_P dist a b n).getD m [] =
      (List.range (2 ^ m)).map fun i => P_node dist a b m i := by
    rw [GRA_P, rangeMap_getD _ _ _ m hm']
  have hrowF : (GRA_F dist a b n).getD m [] =
      (List.range (2 ^ m)).map fun i => F_node dist a b m i := by
    rw [GRA_F, rangeMap_getD _ _ _ m hm']
  have hrowT : (GRA_T dist a b n).getD m [] =
      (List.range (2 ^ m)).map fun i => T_node dist a b m i := by
    rw [GRA_T, rangeMap_getD _ _ _ m hm']
  refine ⟨by rw [hrowP]; simp, by rw [hrowF]; simp, by rw [hrowT]; simp, fun i hi => ?_⟩
  have hP : ((GRA_P dist a b n).getD m []).getD i 0 = P_node dist a b m i := by
    rw [hrowP, rangeMap_getD _ _ _ i hi]
  have hF : ((GRA_F dist a b n).getD m []).getD i 0 = F_node dist a b m i := by
    rw [hrowF, rangeMap_getD _ _ _ i hi]
  have hT : ((GRA_T dist a b n).getD m []).getD i 0 = T_node dist a b m i := by
    rw [hrowT, rangeMap_getD _ _ _ i hi]
  refine ⟨?_, ?_, ?_⟩
  · rw [hP, P_node, den_LB_eq, den_UB_eq]
  · rw [hF, F_node, den_LB_eq, den_UB_eq, num_UB_eq]
  · rw [hT, T_node, F_node, den_LB_eq, den_UB_eq, num_UB_eq]

/-- Witness for C1 at `dist = const 1`, `a = 0`, `b = 1`, `n = 0`. -/
theorem claim_C1_witness :
    (0 : ℝ) < 1 ∧
      ((GRA_P (fun _ => 1) 0 1 0).length = 0 + 1 ∧
        (GRA_F (fun _ => 1) 0 1 0).length = 0 + 1 ∧
        (GRA_T (fun _ => 1) 0 1 0).length = 0 + 1 ∧
        ∀ m, m ≤ 0 →
          ((GRA_P (fun _ => 1) 0 1 0).getD m []).length = 2 ^ m ∧
          ((GRA_F (fun _ => 1) 0 1 0).getD m []).length = 2 ^ m ∧
          ((GRA_T (fun _ => 1) 0 1 0).getD m []).length = 2 ^ m ∧
          ∀ i, i < 2 ^ m →
            ((GRA_P (fun _ => 1) 0 1 0).getD m []).getD i 0 =
              ∫ x in
                ((0 : ℝ) + ((1 : ℝ) - 0) * i / 2 ^ m)..((0 : ℝ) + ((1 : ℝ) - 0) * (i + 1) / 2 ^ m),
                (1 : ℝ) ∧
            ((GRA_F (fun _ => 1) 0 1 0).getD m []).getD i 0 =
              (∫ x in
                  ((0 : ℝ) + ((1 : ℝ) - 0) * i / 2 ^ m)..((0 : ℝ) + ((1 : ℝ) - 0) * i / 2 ^ m +
                    ((1 : ℝ) - 0) / 2 ^ (m + 1)),
                  (1 : ℝ)) /
                ∫ x in
                  ((0 : ℝ) + ((1 : ℝ) - 0) * i / 2 ^ m)..((0 : ℝ) +
                    ((1 : ℝ) - 0) * (i + 1) / 2 ^ m),
                  (1 : ℝ) ∧
            ((GRA_T (fun _ => 1) 0 1 0).getD m []).getD i 0 =
              Real.arccos (Real.sqrt
                ((∫ x in
                    ((0 : ℝ) + ((1 : ℝ) - 0) * i / 2 ^ m)..((0 : ℝ) + ((1 : ℝ) - 0) * i / 2 ^ m +
                      ((1 : ℝ) - 0) / 2 ^ (m + 1)),
                    (1 : ℝ)) /
                  ∫ x in
                    ((0 : ℝ) + ((1 : ℝ) - 0) * i / 2 ^ m)..((0 : ℝ) +
                      ((1 : ℝ) - 0) * (i + 1) / 2 ^ m),
                    (1 : ℝ)))) :=
  ⟨by norm_num, claim_C1 (fun _ => 1) 0 1 (by norm_num) 0⟩

theorem two_div_pow_succ (i : ℕ) : (2 : ℝ) / 2 ^ (i + 1) = 1 / 2 ^ i := by
  rw [pow_succ, mul_comm, div_mul_eq_div_div]
  norm_num

/-- Unfolding the loop of `binary_approx`: it appends a list `bits` of
`fuel` binary digits and adds their weighted sum to the accumulator. -/
theorem binApproxGo_spec (n : ℝ) : ∀ (fuel i : ℕ) (acc : List ℕ) (total : ℝ),
    ∃ bits : List ℕ,
      binApproxGo n fuel i acc total =
        (acc ++ bits, total + ∑ j ∈ Finset.range fuel, (bits.getD j 0 : ℝ) / 2 ^ (i + j)) ∧
      bits.length = fuel ∧ ∀ b ∈ bits, b = 0 ∨ b = 1 := by
  intro fuel
  induction fuel with
  | zero =>
    intro i acc total
    exact ⟨[], by simp [binApproxGo], rfl, by simp⟩
  | succ fuel ih =>
    intro i acc total
    set bit : ℕ := if n > total + 1 / 2 ^ i then 1 else 0 with hbit
    obtain ⟨bits, heq, hlen, hmem⟩ := ih (i + 1) (acc ++ [bit]) (total + bit / 2 ^ i)
    refine ⟨bit :: bits, ?_, by simp [hlen], ?_⟩
    · have hstep : binApproxGo n (fuel + 1) i acc total =
          binApproxGo n fuel (i + 1) (acc ++ [bit]) (total + bit / 2 ^ i) := by
        simp only [binApproxGo]
      rw [hstep, heq]
      have hsum : ∑ j ∈ Finset.range (fuel + 1), ((bit :: bits).getD j 0 : ℝ) / 2 ^ (i + j) =
          (∑ j ∈ Finset.range fuel, (bits.getD j 0 : ℝ) / 2 ^ (i + 1 + j)) +
            (bit : ℝ) / 2 ^ i := by
        rw [Finset.sum_range_succ']
        simp only [List.getD_cons_succ, List.getD_cons_zero, add_zero]
        congr 1
        refine Finset.sum_congr rfl fun j _ => ?_
        have : i + (j + 1) = i + 1 + j := by omega
        rw [this]
      rw [hsum]
      refine Prod.ext ?_ ?_
      · simp
      · simp only
        ring
    · intro b hb
      rcases List.mem_cons.mp hb with h | h
      · subst h
        by_cases hc : n > total + 1 / 2 ^ i
        · right; rw [hbit, if_pos hc]
        · left; rw [hbit, if_neg hc]
      · exact hmem b h

/-- The loop of `binary_approx` never decreases the accumulator. -/
theorem binApproxGo_mono (n : ℝ) : ∀ (fuel i : ℕ) (acc : List ℕ) (total : ℝ),
    total ≤ (binApproxGo n fuel i acc total).2 := by
  intro fuel
  induction fuel with
  | zero => intro i acc total; simp [binApproxGo]
  | succ fuel ih =>
    intro i acc total
    set bit : ℕ := if n > total + 1 / 2 ^ i then 1 else 0 with hbit
    have hstep : binApproxGo n (fuel + 1) i acc total =
        binApproxGo n fuel (i + 1) (acc ++ [bit]) (total + bit / 2 ^ i) := by
      simp only [binApproxGo]
    rw [hstep]
    refine le_trans ?_ (ih (i + 1) (acc ++ [bit]) (total + bit / 2 ^ i))
    have : (0 : ℝ) ≤ (bit : ℝ) / 2 ^ i :=
      div_nonneg (Nat.cast_nonneg bit) (by positivity)
    linarith

/-- If the accumulator is strictly below `n`, it stays strictly below `n`
through the loop of `binary_approx` (each bit is set only under a strict
inequality). -/
theorem binApproxGo_lt (n : ℝ) : ∀ (fuel i : ℕ) (acc : List ℕ) (total : ℝ),
    total < n → (binApproxGo n fuel i acc total).2 < n := by
  intro fuel
  induction fuel with
  | zero => intro i acc total h; simpa [binApproxGo] using h
  | succ fuel ih =>
    intro i acc total h
    set bit : ℕ := if n > total + 1 / 2 ^ i then 1 else 0 with hbit
    have hstep : binApproxGo n (fuel + 1) i acc total =
        binApproxGo n fuel (i + 1) (acc ++ [bit]) (total + bit / 2 ^ i) := by
      simp only [binApproxGo]
    rw [hstep]
    refine ih (i + 1) _ _ ?_
    by_cases hc : n > total + 1 / 2 ^ i
    · have : bit = 1 := by rw [hbit, if_pos hc]
      rw [this]
      push_cast
      linarith
    · have : bit = 0 := by rw [hbit, if_neg hc]
      rw [this]
      push_cast
      rw [zero_div, add_zero]
      linarith

/-- If the accumulator is at most `n`, it stays at most `n` through the loop
of `binary_approx`. -/
theorem binApproxGo_le (n : ℝ) : ∀ (fuel i : ℕ) (acc : List ℕ) (total : ℝ),
    total ≤ n → (binApproxGo n fuel i acc total).2 ≤ n := by
  intro fuel
  induction fuel with
  | zero => intro i acc total h; simpa [binApproxGo] using h
  | succ fuel ih =>
    intro i acc total h
    set bit : ℕ := if n > total + 1 / 2 ^ i then 1 else 0 with hbit
    have hstep : binApproxGo n (fuel + 1) i acc total =
        binApproxGo n fuel (i + 1) (acc ++ [bit]) (total + bit / 2 ^ i) := by
      simp only [binApproxGo]
    rw [hstep]
    refine ih (i + 1) _ _ ?_
    by_cases hc : n > total + 1 / 2 ^ i
    · have : bit = 1 := by rw [hbit, if_pos hc]
      rw [this]
      push_cast
      linarith
    · have : bit = 0 := by rw [hbit, if_neg hc]
      rw [this]
      push_cast
      rw [zero_div, add_zero]
      linarith

/-- Remainder invariant of `binary_approx`: entering iteration `i` with
`n ≤ total + 2/2^i` guarantees `n ≤ total' + 2/2^(i+fuel)` at exit. -/
theorem binApproxGo_rem (n : ℝ) : ∀ (fuel i : ℕ) (acc : List ℕ) (total : ℝ),
    n ≤ total + 2 / 2 ^ i → n ≤ (binApproxGo n fuel i acc total).2 + 2 / 2 ^ (i + fuel) := by
  intro fuel
  induction fuel with
  | zero => intro i acc total h; simpa [binApproxGo] using h
  | succ fuel ih =>
    intro i acc total h
    set bit : ℕ := if n > total + 1 / 2 ^ i then 1 else 0 with hbit
    have hstep : binApproxGo n (fuel + 1) i acc total =
        binApproxGo n fuel (i + 1) (acc ++ [bit]) (total + bit / 2 ^ i) := by
      simp only [binApproxGo]
    rw [hstep]
    have hexp : i + (fuel + 1) = i + 1 + fuel := by omega
    rw [hexp]
    refine ih (i + 1) _ _ ?_
    have hhalf : (2 : ℝ) / 2 ^ (i + 1) = 1 / 2 ^ i := two_div_pow_succ i
    by_cases hc : n > total + 1 / 2 ^ i
    · have : bit = 1 := by rw [hbit, if_pos hc]
      rw [this, hhalf]
      push_cast
      have h2 : (2 : ℝ) / 2 ^ i = 2 * (1 / 2 ^ i) := by ring
      linarith
    · have : bit = 0 := by rw [hbit, if_neg hc]
      rw [this, hhalf]
      push_cast
      rw [zero_div, add_zero]
      linarith

/-- C5: for every real `0 ≤ n ≤ 1` and every `k ≥ 0`, `binary_approx(n, k)`
returns a pair `(a, total)` where `a` is a list of exactly `k` bits, `total`
is the weighted sum of those bits, and `0 ≤ total ≤ n` with
`n - total ≤ 1/2^k`. -/
theorem claim_C5 (n : ℝ) (k : ℕ) (h0 : 0 ≤ n) (h1 : n ≤ 1) :
    (binary_approx n k).1.length = k ∧
    (∀ b ∈ (binary_approx n k).1, b = 0 ∨ b = 1) ∧
    (binary_approx n k).2 =
      ∑ j ∈ Finset.range k, (((binary_approx n k).1.getD j 0 : ℝ)) / 2 ^ (j + 1) ∧
    0 ≤ (binary_approx n k).2 ∧
    (binary_approx n k).2 ≤ n ∧
    n - (binary_approx n k).2 ≤ 1 / 2 ^ k := by
  obtain ⟨bits, heq, hlen, hmem⟩ := binApproxGo_spec n k 1 [] 0
  have h1' : (binary_approx n k).1 = bits := by
    rw [binary_approx, heq]
    simp
  have h2' : (binary_approx n k).2 =
      ∑ j ∈ Finset.range k, ((bits.getD j 0 : ℝ)) / 2 ^ (1 + j) := by
    rw [binary_approx, heq]
    simp
  refine ⟨by rw [h1', hlen], by rw [h1']; exact hmem, ?_, ?_, ?_, ?_⟩
  · rw [h2', h1']
    refine Finset.sum_congr rfl fun j _ => ?_
    have : 1 + j = j + 1 := by omega
    rw [this]
  · have := binApproxGo_mono n k 1 [] 0
    rw [binary_approx]
    linarith
  · exact binApproxGo_le n k 1 [] 0 h0
  · have := binApproxGo_rem n k 1 [] 0 (by rw [two_div_pow_succ 0]; simpa using h1)
    have hhalf : (2 : ℝ) / 2 ^ (1 + k) = 1 / 2 ^ k := by
      have : 1 + k = k + 1 := by omega
      rw [this, two_div_pow_succ k]
    rw [hhalf] at this
    rw [binary_approx]
    linarith

/-- Witness for C5 at `n = 1/2`, `k = 1`. -/
theorem claim_C5_witness :
    (0 : ℝ) ≤ 1 / 2 ∧ (1 : ℝ) / 2 ≤ 1 ∧
      ((binary_approx (1 / 2) 1).1.length = 1 ∧
        (∀ b ∈ (binary_approx (1 / 2) 1).1, b = 0 ∨ b = 1) ∧
        (binary_approx (1 / 2) 1).2 =
          ∑ j ∈ Finset.range 1, (((binary_approx (1 / 2) 1).1.getD j 0 : ℝ)) / 2 ^ (j + 1) ∧
        0 ≤ (binary_approx (1 / 2) 1).2 ∧
        (binary_approx (1 / 2) 1).2 ≤ 1 / 2 ∧
        (1 : ℝ) / 2 - (binary_approx (1 / 2) 1).2 ≤ 1 / 2 ^ 1) :=
  ⟨by norm_num, by norm_num, claim_C5 (1 / 2) 1 (by norm_num) (by norm_num)⟩

/-- C10: for every real `n > 0` and `k ≥ 1`, the total returned by
`binary_approx(n, k)` is strictly below `n` (each bit is set only under the
strict inequality `n > total + 1/2^i`), and `total = 0` only when every bit
of the returned list is `0`. -/
theorem claim_C10 (n : ℝ) (k : ℕ) (hn : 0 < n) (hk : 1 ≤ k) :
    (binary_approx n k).2 < n ∧
    ((binary_approx n k).2 = 0 → ∀ b ∈ (binary_approx n k).1, b = 0) := by
  constructor
  · exact binApproxGo_lt n k 1 [] 0 hn
  · intro h0 b hb
    obtain ⟨bits, heq, hlen, hmem⟩ := binApproxGo_spec n k 1 [] 0
    have h1' : (binary_approx n k).1 = bits := by
      rw [binary_approx, heq]
      simp
    have h2' : (binary_approx n k).2 =
        ∑ j ∈ Finset.range k, ((bits.getD j 0 : ℝ)) / 2 ^ (1 + j) := by
      rw [binary_approx, heq]
      simp
    rw [h2'] at h0
    have hterm : ∀ j ∈ Finset.range k, ((bits.getD j 0 : ℝ)) / 2 ^ (1 + j) = 0 :=
      (Finset.sum_eq_zero_iff_of_nonneg fun j _ =>
        div_nonneg (Nat.cast_nonneg _) (by positivity)).mp h0
    rw [h1'] at hb
    obtain ⟨idx, hidx, hval⟩ := List.mem_iff_getElem.mp hb
    have hidx' : idx ∈ Finset.range k := Finset.mem_range.mpr (hlen ▸ hidx)
    have hdiv := hterm idx hidx'
    rw [List.getD_eq_getElem bits 0 hidx] at hdiv
    have hz : ((bits[idx] : ℕ) : ℝ) = 0 :=
      (div_eq_zero_iff.mp hdiv).resolve_right (by positivity)
    have hzn : bits[idx] = 0 := by exact_mod_cast hz
    rw [← hval]
    exact hzn

/-- Witness for C10 at `n = 1/2`, `k = 1`. -/
theorem claim_C10_witness :
    (0 : ℝ) < 1 / 2 ∧ 1 ≤ 1 ∧
      ((binary_approx (1 / 2) 1).2 < 1 / 2 ∧
        ((binary_approx (1 / 2) 1).2 = 0 → ∀ b ∈ (binary_approx (1 / 2) 1).1, b = 0)) :=
  ⟨by norm_num, le_refl 1, claim_C10 (1 / 2) 1 (by norm_num) (le_refl 1)⟩

/-- C6: for every input `(mu, sigma, k, N)`, the Kitaev-Webb preparation
function `KWA` returns `None` and constructs no circuit: its body consists
only of a docstring, with no working recursive construction. -/
theorem claim_C6 : ∀ (mu sigma : ℝ) (k N : ℕ), KWA mu sigma k N = none :=
  fun _ _ _ _ => rfl

/-- C7: for every `mu`, every `sigma ≠ 0` and every `n ≥ 0`, `f(mu, sigma, n)`
equals the finite symmetric truncation sum over `j = -n..n` of
`exp(-(j - mu)^2 / sigma^2)` (a sum of `2n+1` terms, not the infinite
normalization sum), `angle(mu, sigma, n)` equals
`arccos(sqrt(f(mu/2, sigma/2, n) / f(mu, sigma, n)))`, and the truncation
bound defaults to `n = 1000`. -/
theorem claim_C7 (mu sigma : ℝ) (hs : sigma ≠ 0) (n : ℕ) :
    f mu sigma n =
      ∑ j ∈ Finset.Icc (-(n : ℤ)) (n : ℤ), Real.exp (-((j : ℝ) - mu) ^ 2 / sigma ^ 2) ∧
    (Finset.Icc (-(n : ℤ)) (n : ℤ)).card = 2 * n + 1 ∧
    angle mu sigma n = Real.arccos (Real.sqrt (f (mu / 2) (sigma / 2) n / f mu sigma n)) ∧
    angleDefault mu sigma = angle mu sigma 1000 := by
  refine ⟨rfl, ?_, rfl, rfl⟩
  rw [Int.card_Icc]
  omega

/-- Witness for C7 at `mu = 0`, `sigma = 1`, `n = 0`. -/
theorem claim_C7_witness :
    (1 : ℝ) ≠ 0 ∧
      (f 0 1 0 =
          ∑ j ∈ Finset.Icc (-((0 : ℕ) : ℤ)) ((0 : ℕ) : ℤ),
            Real.exp (-((j : ℝ) - 0) ^ 2 / 1 ^ 2) ∧
        (Finset.Icc (-((0 : ℕ) : ℤ)) ((0 : ℕ) : ℤ)).card = 2 * 0 + 1 ∧
        angle 0 1 0 = Real.arccos (Real.sqrt (f (0 / 2) (1 / 2) 0 / f 0 1 0)) ∧
        angleDefault 0 1 = angle 0 1 1000) :=
  ⟨by norm_num, claim_C7 0 1 (by norm_num) 0⟩

/-- C9: for every `n ≥ 1`, `GRA` finishes circuit construction by appending
exactly `⌊n/2⌋` swap gates, swapping qubit `i` with qubit `n-1-i` for
`i = 0, ..., ⌊n/2⌋ - 1` (reversing the qubit order); for odd `n` the two
branches of the parity test emit identical gate sequences, since
`n // 2 = (n-1) // 2` there, so the case split is redundant. -/
theorem claim_C9 (n : ℕ) (hn : 1 ≤ n) :
    graSwaps n = (List.range (n / 2)).map (fun i => Gate.swap i (n - 1 - i)) ∧
    (graSwaps n).length = n / 2 ∧
    (n % 2 = 1 →
      ((List.range (n / 2)).map fun i => Gate.swap i (n - i - 1)) =
        (List.range ((n - 1) / 2)).map fun i => Gate.swap i (n - i - 1)) := by
  have hmap : ∀ k : ℕ,
      ((List.range k).map fun i => Gate.swap i (n - i - 1)) =
        (List.range k).map fun i => Gate.swap i (n - 1 - i) := by
    intro k
    refine List.map_congr_left fun i _ => ?_
    have : n - i - 1 = n - 1 - i := by omega
    rw [this]
  have hfirst : graSwaps n = (List.range (n / 2)).map fun i => Gate.swap i (n - 1 - i) := by
    unfold graSwaps
    by_cases h : n % 2 = 0
    · rw [if_pos h, hmap]
    · rw [if_neg h]
      have h2 : (n - 1) / 2 = n / 2 := by omega
      rw [h2, hmap]
  refine ⟨hfirst, ?_, ?_⟩
  · rw [hfirst, List.length_map, List.length_range]
  · intro hodd
    have h2 : n / 2 = (n - 1) / 2 := by omega
    rw [h2]

/-- Witness for C9 at `n = 3`. -/
theorem claim_C9_witness :
    1 ≤ 3 ∧
      (graSwaps 3 = (List.range (3 / 2)).map (fun i => Gate.swap i (3 - 1 - i)) ∧
        (graSwaps 3).length = 3 / 2 ∧
        (3 % 2 = 1 →
          ((List.range (3 / 2)).map fun i => Gate.swap i (3 - i - 1)) =
            (List.range ((3 - 1) / 2)).map fun i => Gate.swap i (3 - i - 1))) :=
  ⟨by decide, claim_C9 3 (by decide)⟩

theorem pow_two_pos (m : ℕ) : (0 : ℝ) < 2 ^ m := by positivity

theorem den_LB_ge {a b : ℝ} (hab : a ≤ b) (m i : ℕ) : a ≤ den_LB a b m i := by
  unfold den_LB
  have h1 : (0 : ℝ) ≤ (b - a) / 2 ^ m * i :=
    mul_nonneg (div_nonneg (sub_nonneg.mpr hab) (pow_two_pos m).le) (Nat.cast_nonneg i)
  linarith

theorem den_UB_le {a b : ℝ} (hab : a ≤ b) {m i : ℕ} (hi : i < 2 ^ m) : den_UB a b m i ≤ b := by
  unfold den_UB
  have hcast : (i : ℝ) + 1 ≤ 2 ^ m := by
    have h1 : ((i + 1 : ℕ) : ℝ) ≤ ((2 ^ m : ℕ) : ℝ) := by exact_mod_cast hi
    push_cast at h1
    exact h1
  have hnn : (0 : ℝ) ≤ (b - a) / 2 ^ m := div_nonneg (sub_nonneg.mpr hab) (pow_two_pos m).le
  have key : (b - a) / 2 ^ m * ((i : ℝ) + 1) ≤ (b - a) / 2 ^ m * 2 ^ m :=
    mul_le_mul_of_nonneg_left hcast hnn
  have hcancel : (b - a) / 2 ^ m * 2 ^ m = b - a := div_mul_cancel₀ _ (pow_two_pos m).ne'
  linarith

theorem den_LB_lt_UB {a b : ℝ} (hab : a < b) (m i : ℕ) : den_LB a b m i < den_UB a b m i := by
  unfold den_LB den_UB
  have h := div_pos (sub_pos.mpr hab) (pow_two_pos m)
  have h2 : (b - a) / 2 ^ m * (i : ℝ) < (b - a) / 2 ^ m * ((i : ℝ) + 1) :=
    mul_lt_mul_of_pos_left (by linarith) h
  linarith

/-- Restriction of interval integrability to a node interval of `GRA`. -/
theorem intervalIntegrable_node {dist : ℝ → ℝ} {a b : ℝ} (hab : a < b)
    (hInt : IntervalIntegrable dist volume a b) {m i : ℕ} (hi : i < 2 ^ m) :
    IntervalIntegrable dist volume (den_LB a b m i) (den_UB a b m i) := by
  apply hInt.mono_set
  rw [Set.uIcc_of_le (den_LB_lt_UB hab m i).le, Set.uIcc_of_le hab.le]
  exact Set.Icc_subset_Icc (den_LB_ge hab.le m i) (den_UB_le hab.le hi)

theorem den_LB_succ_left (a b : ℝ) (m i : ℕ) :
    den_LB a b (m + 1) (2 * i) = den_LB a b m i := by
  unfold den_LB
  push_cast
  ring

theorem den_UB_succ_left (a b : ℝ) (m i : ℕ) :
    den_UB a b (m + 1) (2 * i) = num_UB a b m i := by
  unfold den_UB num_UB den_LB
  push_cast
  ring

theorem den_LB_succ_right (a b : ℝ) (m i : ℕ) :
    den_LB a b (m + 1) (2 * i + 1) = num_UB a b m i := by
  unfold den_LB num_UB
  rw [den_LB_eq]
  push_cast
  ring

theorem den_UB_succ_right (a b : ℝ) (m i : ℕ) :
    den_UB a b (m + 1) (2 * i + 1) = den_UB a b m i := by
  unfold den_UB
  push_cast
  ring

theorem den_LB_succ_idx (a b : ℝ) (m i : ℕ) :
    den_LB a b m (i + 1) = den_UB a b m i := by
  unfold den_LB den_UB
  push_cast
  ring

theorem two_mul_lt_pow_succ {m i : ℕ} (hi : i < 2 ^ m) : 2 * i < 2 ^ (m + 1) := by
  have h : 2 ^ (m + 1) = 2 ^ m * 2 := pow_succ 2 m
  omega

theorem two_mul_succ_lt_pow_succ {m i : ℕ} (hi : i < 2 ^ m) : 2 * i + 1 < 2 ^ (m + 1) := by
  have h : 2 ^ (m + 1) = 2 ^ m * 2 := pow_succ 2 m
  omega

/-- The numerator integral of `F[m][i]` is exactly the probability of the
left child node: `F[m][i] = P[m+1][2i] / P[m][i]` as real numbers, with no
assumptions on `dist`. -/
theorem F_node_eq_div (dist : ℝ → ℝ) (a b : ℝ) (m i : ℕ) :
    F_node dist a b m i = P_node dist a b (m + 1) (2 * i) / P_node dist a b m i := by
  unfold F_node P_node
  rw [den_LB_succ_left, den_UB_succ_left]

/-- Additivity of the node probabilities over the two half-intervals. -/
theorem P_node_split {dist : ℝ → ℝ} {a b : ℝ} (hab : a < b)
    (hInt : IntervalIntegrable dist volume a b) {m i : ℕ} (hi : i < 2 ^ m) :
    P_node dist a b m i = P_node dist a b (m + 1) (2 * i) + P_node dist a b (m + 1) (2 * i + 1) := by
  have h1 := intervalIntegrable_node hab hInt (two_mul_lt_pow_succ hi)
  rw [den_LB_succ_left, den_UB_succ_left] at h1
  have h2 := intervalIntegrable_node hab hInt (two_mul_succ_lt_pow_succ hi)
  rw [den_LB_succ_right, den_UB_succ_right] at h2
  unfold P_node
  rw [den_LB_succ_left, den_UB_succ_left, den_LB_succ_right, den_UB_succ_right]
  exact (intervalIntegral.integral_add_adjacent_intervals h1 h2).symm

/-- For a density strictly positive on `[a, b]`, every node probability of
`GRA` is strictly positive. -/
theorem P_node_pos {dist : ℝ → ℝ} {a b : ℝ} (hab : a < b)
    (hInt : IntervalIntegrable dist volume a b) (hpos : ∀ y ∈ Set.Icc a b, 0 < dist y)
    {m i : ℕ} (hi : i < 2 ^ m) : 0 < P_node dist a b m i := by
  unfold P_node
  refine intervalIntegral.intervalIntegral_pos_of_pos_on
    (intervalIntegrable_node hab hInt hi) (fun x hx => ?_) (den_LB_lt_UB hab m i)
  refine hpos x ⟨?_, ?_⟩
  · exact le_trans (den_LB_ge hab.le m i) hx.1.le
  · exact le_trans hx.2.le (den_UB_le hab.le hi)

theorem F_node_nonneg {dist : ℝ → ℝ} {a b : ℝ} (hab : a < b)
    (hInt : IntervalIntegrable dist volume a b) (hpos : ∀ y ∈ Set.Icc a b, 0 < dist y)
    {m i : ℕ} (hi : i < 2 ^ m) : 0 ≤ F_node dist a b m i := by
  rw [F_node_eq_div]
  have h1 := P_node_pos hab hInt hpos (two_mul_lt_pow_succ hi)
  have h2 := P_node_pos hab hInt hpos hi
  exact (div_pos h1 h2).le

theorem F_node_le_one {dist : ℝ → ℝ} {a b : ℝ} (hab : a < b)
    (hInt : IntervalIntegrable dist volume a b) (hpos : ∀ y ∈ Set.Icc a b, 0 < dist y)
    {m i : ℕ} (hi : i < 2 ^ m) : F_node dist a b m i ≤ 1 := by
  rw [F_node_eq_div]
  have hsplit := P_node_split hab hInt hi
  have hrt := P_node_pos hab hInt hpos (two_mul_succ_lt_pow_succ hi)
  have hall := P_node_pos hab hInt hpos hi
  rw [div_le_one hall]
  linarith

theorem cos_sq_T {dist : ℝ → ℝ} {a b : ℝ} (hab : a < b)
    (hInt : IntervalIntegrable dist volume a b) (hpos : ∀ y ∈ Set.Icc a b, 0 < dist y)
    {m i : ℕ} (hi : i < 2 ^ m) :
    Real.cos (T_node dist a b m i) ^ 2 = F_node dist a b m i := by
  unfold T_node
  rw [Real.cos_arccos (le_trans (by norm_num) (Real.sqrt_nonneg _))
    (Real.sqrt_le_one.mpr (F_node_le_one hab hInt hpos hi))]
  exact Real.sq_sqrt (F_node_nonneg hab hInt hpos hi)

theorem sin_sq_T {dist : ℝ → ℝ} {a b : ℝ} (hab : a < b)
    (hInt : IntervalIntegrable dist volume a b) (hpos : ∀ y ∈ Set.Icc a b, 0 < dist y)
    {m i : ℕ} (hi : i < 2 ^ m) :
    Real.sin (T_node dist a b m i) ^ 2 = 1 - F_node dist a b m i := by
  unfold T_node
  rw [Real.sin_arccos]
  have h0 : 0 ≤ Real.sqrt (F_node dist a b m i) := Real.sqrt_nonneg _
  have h1 : Real.sqrt (F_node dist a b m i) ≤ 1 :=
    Real.sqrt_le_one.mpr (F_node_le_one hab hInt hpos hi)
  rw [Real.sq_sqrt (by nlinarith : (0 : ℝ) ≤ 1 - Real.sqrt (F_node dist a b m i) ^ 2)]
  rw [Real.sq_sqrt (F_node_nonneg hab hInt hpos hi)]

/-- Levelwise conservation: the `2^m` node probabilities of level `m` sum to
the total mass of `dist` on `[a, b]`. -/
theorem sum_P_node {dist : ℝ → ℝ} {a b : ℝ} (hab : a < b)
    (hInt : IntervalIntegrable dist volume a b) (m : ℕ) :
    ∑ i ∈ Finset.range (2 ^ m), P_node dist a b m i = ∫ x in a..b, dist x := by
  have hint : ∀ k < 2 ^ m,
      IntervalIntegrable dist volume (den_LB a b m k) (den_LB a b m (k + 1)) := by
    intro k hk
    rw [den_LB_succ_idx]
    exact intervalIntegrable_node hab hInt hk
  have key : (∑ k ∈ Finset.range (2 ^ m),
        ∫ x in (den_LB a b m k)..(den_LB a b m (k + 1)), dist x) =
      ∫ x in (den_LB a b m 0)..(den_LB a b m (2 ^ m)), dist x :=
    intervalIntegral.sum_integral_adjacent_intervals hint
  have hsum : (∑ k ∈ Finset.range (2 ^ m),
        ∫ x in (den_LB a b m k)..(den_LB a b m (k + 1)), dist x) =
      ∑ i ∈ Finset.range (2 ^ m), P_node dist a b m i := by
    refine Finset.sum_congr rfl fun k _ => ?_
    rw [den_LB_succ_idx]
    rfl
  have h0 : den_LB a b m 0 = a := by
    unfold den_LB
    simp
  have hN : den_LB a b m (2 ^ m) = b := by
    unfold den_LB
    have hc : ((2 ^ m : ℕ) : ℝ) = (2 : ℝ) ^ m := by push_cast; ring
    rw [hc, div_mul_cancel₀ _ (pow_two_pos m).ne']
    ring
  rw [← hsum, key, h0, hN]

/-- C2: the conditional-mass relations of `GRA`: `F[m][i] = P[m+1][2i] / P[m][i]`,
`P[m][i] = P[m+1][2i] + P[m+1][2i+1]` (additivity of the integral over
adjacent half-intervals), and at every level the node probabilities sum to
the total mass of `dist` on `[a, b]`. -/
theorem claim_C2 (dist : ℝ → ℝ) (a b : ℝ) (hab : a < b)
    (hInt : IntervalIntegrable dist volume a b) (n : ℕ) (hn : 1 ≤ n)
    (m : ℕ) (hm : m ≤ n - 1) (i : ℕ) (hi : i < 2 ^ m) :
    F_node dist a b m i = P_node dist a b (m + 1) (2 * i) / P_node dist a b m i ∧
    P_node dist a b m i = P_node dist a b (m + 1) (2 * i) + P_node dist a b (m + 1) (2 * i + 1) ∧
    ∀ l, l ≤ n → ∑ j ∈ Finset.range (2 ^ l), P_node dist a b l j = ∫ x in a..b, dist x :=
  ⟨F_node_eq_div dist a b m i, P_node_split hab hInt hi,
    fun l _ => sum_P_node hab hInt l⟩

/-- Witness for C2 at `dist = const 1`, `a = 0`, `b = 1`, `n = 1`, `m = 0`, `i = 0`. -/
theorem claim_C2_witness :
    (0 : ℝ) < 1 ∧
      (F_node (fun _ => 1) 0 1 0 0 =
          P_node (fun _ => 1) 0 1 (0 + 1) (2 * 0) / P_node (fun _ => 1) 0 1 0 0 ∧
        P_node (fun _ => 1) 0 1 0 0 =
          P_node (fun _ => 1) 0 1 (0 + 1) (2 * 0) + P_node (fun _ => 1) 0 1 (0 + 1) (2 * 0 + 1) ∧
        ∀ l, l ≤ 1 →
          ∑ j ∈ Finset.range (2 ^ l), P_node (fun _ => 1) 0 1 l j = ∫ _x in (0 : ℝ)..1, (1 : ℝ)) :=
  ⟨by norm_num,
    claim_C2 (fun _ => 1) 0 1 (by norm_num) (intervalIntegrable_const) 1 le_rfl 0
      (by norm_num) 0 (by norm_num)⟩

/-- The distributions accepted by `GRA`: densities whose logarithm is
concave on the given set. -/
def LogConcaveOn (dist : ℝ → ℝ) (s : Set ℝ) : Prop :=
  ConcaveOn ℝ s fun y => Real.log (dist y)

/-- C8: for a log-concave density strictly positive on `[a, b]`, every
division performed by `GRA` has a positive denominator integral, and every
argument passed to `sqrt` and `arccos` lies in `[0, 1]`. -/
theorem claim_C8 (dist : ℝ → ℝ) (a b : ℝ) (hab : a < b)
    (hlc : LogConcaveOn dist (Set.Icc a b)) (hpos : ∀ y ∈ Set.Icc a b, 0 < dist y)
    (hInt : IntervalIntegrable dist volume a b) (n : ℕ)
    (m : ℕ) (hm : m ≤ n) (i : ℕ) (hi : i < 2 ^ m) :
    0 < P_node dist a b m i ∧ P_node dist a b m i ≠ 0 ∧
    0 ≤ F_node dist a b m i ∧ F_node dist a b m i ≤ 1 ∧
    0 ≤ Real.sqrt (F_node dist a b m i) ∧ Real.sqrt (F_node dist a b m i) ≤ 1 := by
  have hp := P_node_pos hab hInt hpos hi
  refine ⟨hp, hp.ne', F_node_nonneg hab hInt hpos hi, F_node_le_one hab hInt hpos hi,
    Real.sqrt_nonneg _, Real.sqrt_le_one.mpr (F_node_le_one hab hInt hpos hi)⟩

/-- Witness for C8 at `dist = const 1`, `a = 0`, `b = 1`, `n = m = 1`, `i = 0`. -/
theorem claim_C8_witness :
    (0 : ℝ) < 1 ∧ LogConcaveOn (fun _ => 1) (Set.Icc 0 1) ∧
      (∀ y ∈ Set.Icc (0 : ℝ) 1, (0 : ℝ) < 1) ∧
      (0 < P_node (fun _ => 1) 0 1 1 0 ∧ P_node (fun _ => 1) 0 1 1 0 ≠ 0 ∧
        0 ≤ F_node (fun _ => 1) 0 1 1 0 ∧ F_node (fun _ => 1) 0 1 1 0 ≤ 1 ∧
        0 ≤ Real.sqrt (F_node (fun _ => 1) 0 1 1 0) ∧
        Real.sqrt (F_node (fun _ => 1) 0 1 1 0) ≤ 1) := by
  have hlc : LogConcaveOn (fun _ => (1 : ℝ)) (Set.Icc 0 1) := by
    unfold LogConcaveOn
    simpa [Real.log_one] using concaveOn_const (0 : ℝ) (convex_Icc (0 : ℝ) 1)
  exact ⟨by norm_num, hlc, fun y _ => by norm_num,
    claim_C8 (fun _ => 1) 0 1 (by norm_num) hlc (fun y _ => by norm_num)
      intervalIntegrable_const 1 1 le_rfl 0 (by norm_num)⟩

theorem div_pow_lt {x n k : ℕ} (hx : x < 2 ^ n) (hk : k ≤ n) : x / 2 ^ (n - k) < 2 ^ k := by
  apply Nat.div_lt_of_lt_mul
  have h : 2 ^ (n - k) * 2 ^ k = 2 ^ n := by
    rw [← pow_add]
    congr 1
    omega
  omega

/-- Telescoping of the root-to-leaf conditional factors of `GRA`: after `k`
levels the product equals the normalized mass of the depth-`k` prefix node of
`x`. -/
theorem path_prod {dist : ℝ → ℝ} {a b : ℝ} (hab : a < b)
    (hInt : IntervalIntegrable dist volume a b) (hpos : ∀ y ∈ Set.Icc a b, 0 < dist y)
    (n x : ℕ) (hx : x < 2 ^ n) :
    ∀ k, k ≤ n →
      (∏ m ∈ Finset.range k,
          (if x / 2 ^ (n - 1 - m) % 2 = 0 then
            Real.cos (T_node dist a b m (x / 2 ^ (n - m))) ^ 2
          else Real.sin (T_node dist a b m (x / 2 ^ (n - m))) ^ 2)) =
        P_node dist a b k (x / 2 ^ (n - k)) / P_node dist a b 0 0 := by
  intro k
  induction k with
  | zero =>
    intro _
    have hx0 : x / 2 ^ (n - 0) = 0 := by
      apply Nat.div_eq_of_lt
      simpa using hx
    rw [Finset.prod_range_zero, hx0]
    exact (div_self (P_node_pos hab hInt hpos (show (0 : ℕ) < 2 ^ 0 by norm_num)).ne').symm
  | succ k ih =>
    intro hk1
    have hk : k ≤ n := by omega
    have hp : x / 2 ^ (n - k) < 2 ^ k := div_pow_lt hx hk
    have hexp : 2 ^ (n - (k + 1)) * 2 = 2 ^ (n - k) := by
      rw [← pow_succ]
      congr 1
      omega
    have hc2 : x / 2 ^ (n - (k + 1)) / 2 = x / 2 ^ (n - k) := by
      rw [Nat.div_div_eq_div_mul, hexp]
    have hm1 : n - 1 - k = n - (k + 1) := by omega
    rw [Finset.prod_range_succ, ih hk, hm1]
    have hP0 := P_node_pos hab hInt hpos (show (0 : ℕ) < 2 ^ 0 by norm_num)
    have hPk := P_node_pos hab hInt hpos hp
    have hP0' : P_node dist a b 0 0 ≠ 0 := hP0.ne'
    have hPk' : P_node dist a b k (x / 2 ^ (n - k)) ≠ 0 := hPk.ne'
    by_cases hb : x / 2 ^ (n - (k + 1)) % 2 = 0
    · have hceq : x / 2 ^ (n - (k + 1)) = 2 * (x / 2 ^ (n - k)) := by omega
      rw [if_pos hb, cos_sq_T hab hInt hpos hp, F_node_eq_div, hceq]
      field_simp
      ring
    · have hceq : x / 2 ^ (n - (k + 1)) = 2 * (x / 2 ^ (n - k)) + 1 := by omega
      rw [if_neg hb, sin_sq_T hab hInt hpos hp, F_node_eq_div, hceq]
      have hsplit := P_node_split hab hInt hp
      have key : (1 : ℝ) -
          P_node dist a b (k + 1) (2 * (x / 2 ^ (n - k))) /
            P_node dist a b k (x / 2 ^ (n - k)) =
          P_node dist a b (k + 1) (2 * (x / 2 ^ (n - k)) + 1) /
            P_node dist a b k (x / 2 ^ (n - k)) := by
        rw [eq_div_iff hPk', sub_mul, one_mul, div_mul_cancel₀ _ hPk']
        linarith
      rw [key]
      field_simp
      ring

/-- C4: for a log-concave density strictly positive on `[a, b]`, the
root-to-leaf product of the conditional factors of `GRA` (`cos^2(T[m][prefix])`
when the `m`-th path bit of `x` is 0, `sin^2(T[m][prefix]) = 1 - F[m][prefix]`
when it is 1, with `prefix = x / 2^(n-m)` the depth-`m` node of `x`) equals
the normalized finest-level interval mass `P[n][x] / P[0][0]`. -/
theorem claim_C4 (dist : ℝ → ℝ) (a b : ℝ) (hab : a < b)
    (hlc : LogConcaveOn dist (Set.Icc a b)) (hpos : ∀ y ∈ Set.Icc a b, 0 < dist y)
    (hInt : IntervalIntegrable dist volume a b) (n : ℕ) (hn : 1 ≤ n)
    (x : ℕ) (hx : x < 2 ^ n) :
    (∀ m i, i < 2 ^ m → Real.sin (T_node dist a b m i) ^ 2 = 1 - F_node dist a b m i) ∧
    (∏ m ∈ Finset.range n,
        (if x / 2 ^ (n - 1 - m) % 2 = 0 then
          Real.cos (T_node dist a b m (x / 2 ^ (n - m))) ^ 2
        else Real.sin (T_node dist a b m (x / 2 ^ (n - m))) ^ 2)) =
      P_node dist a b n x / P_node dist a b 0 0 := by
  refine ⟨fun m i hi => sin_sq_T hab hInt hpos hi, ?_⟩
  have h := path_prod hab hInt hpos n x hx n le_rfl
  rw [Nat.sub_self] at h
  simpa using h

/-- Witness for C4 at `dist = const 1`, `a = 0`, `b = 1`, `n = 1`, `x = 0`. -/
theorem claim_C4_witness :
    (0 : ℝ) < 1 ∧ LogConcaveOn (fun _ => 1) (Set.Icc 0 1) ∧
      (∀ y ∈ Set.Icc (0 : ℝ) 1, (0 : ℝ) < 1) ∧ 1 ≤ 1 ∧ 0 < 2 ^ 1 ∧
      ((∀ m i, i < 2 ^ m →
          Real.sin (T_node (fun _ => 1) 0 1 m i) ^ 2 = 1 - F_node (fun _ => 1) 0 1 m i) ∧
        (∏ m ∈ Finset.range 1,
            (if 0 / 2 ^ (1 - 1 - m) % 2 = 0 then
              Real.cos (T_node (fun _ => 1) 0 1 m (0 / 2 ^ (1 - m))) ^ 2
            else Real.sin (T_node (fun _ => 1) 0 1 m (0 / 2 ^ (1 - m))) ^ 2)) =
          P_node (fun _ => 1) 0 1 1 0 / P_node (fun _ => 1) 0 1 0 0) := by
  have hlc : LogConcaveOn (fun _ => (1 : ℝ)) (Set.Icc 0 1) := by
    unfold LogConcaveOn
    simpa [Real.log_one] using concaveOn_const (0 : ℝ) (convex_Icc (0 : ℝ) 1)
  exact ⟨by norm_num, hlc, fun y _ => by norm_num, le_rfl, by norm_num,
    claim_C4 (fun _ => 1) 0 1 (by norm_num) hlc (fun y _ => by norm_num)
      intervalIntegrable_const 1 le_rfl 0 (by norm_num)⟩

/-- The gate sequence the specification describes for the body of `GRA`,
with the control activation read via `Nat.testBit`: for each level
`m = 1, ..., n-1` and pattern `i < 2^m`, X gates on qubit `m-j-1` for the
clear bits `j` of `i`, one multi-controlled RX with controls `0..m-1` and
target `m`, and the same X gates again. -/
def specBody (T : ℕ → ℕ → ℝ) (n : ℕ) : List Gate :=
  Gate.rx (2 * T 0 0) 0 ::
    (List.range' 1 (n - 1)).flatMap fun m =>
      (List.range (2 ^ m)).flatMap fun i =>
        ((List.range m).filterMap fun j =>
            if i.testBit j = false then some (Gate.x (m - j - 1)) else none) ++
          [Gate.mcrx (2 * T m i) (List.range m) m] ++
          (List.range m).filterMap fun j =>
            if i.testBit j = false then some (Gate.x (m - j - 1)) else none

theorem and_two_pow_eq_zero (i j : ℕ) : i &&& 2 ^ j = 0 ↔ i.testBit j = false := by
  rw [Nat.and_two_pow]
  rcases Bool.eq_false_or_eq_true (i.testBit j) with h | h
  · simp [h]
  · simp [h, pow_ne_zero j (two_ne_zero)]

theorem xLoop_eq_spec (m i : ℕ) :
    xLoop m i =
      (List.range m).filterMap fun j =>
        if i.testBit j = false then some (Gate.x (m - j - 1)) else none := by
  unfold xLoop
  congr 1
  funext j
  by_cases h : i.testBit j = false
  · rw [if_pos ((and_two_pow_eq_zero i j).mpr h), if_pos h]
  · rw [if_neg (fun hc => h ((and_two_pow_eq_zero i j).mp hc)), if_neg h]

theorem filter_flatMap {α β : Type} (l : List α) (g : α → List β) (p : β → Bool) :
    (l.flatMap g).filter p = l.flatMap fun u => (g u).filter p := by
  induction l with
  | nil => rfl
  | cons u l ih => simp [List.flatMap_cons, List.filter_append, ih]

theorem countP_flatMap {α β : Type} (l : List α) (g : α → List β) (p : β → Bool) :
    (l.flatMap g).countP p = (l.map fun u => (g u).countP p).sum := by
  induction l with
  | nil => rfl
  | cons u l ih => simp [List.flatMap_cons, List.countP_append, ih]

theorem xLoop_mem_x {m i : ℕ} {g : Gate} (hg : g ∈ xLoop m i) :
    ∃ q, g = Gate.x q := by
  obtain ⟨j, hj, hsome⟩ := List.mem_filterMap.mp hg
  by_cases h : i &&& 2 ^ j = 0
  · rw [if_pos h] at hsome
    exact ⟨m - j - 1, (Option.some.inj hsome).symm⟩
  · rw [if_neg h] at hsome
    exact absurd hsome (by simp)

theorem xLoop_filter (m i : ℕ) :
    (xLoop m i).filter (fun g => !isBarrierInstr g) = xLoop m i := by
  refine List.filter_eq_self.mpr fun g hg => ?_
  obtain ⟨q, rfl⟩ := xLoop_mem_x hg
  rfl

theorem xLoop_countP (m i : ℕ) : (xLoop m i).countP isRotGate = 0 := by
  refine List.countP_eq_zero.mpr fun g hg => ?_
  obtain ⟨q, rfl⟩ := xLoop_mem_x hg
  simp [isRotGate]

theorem levelBlock_filter (T : ℕ → ℕ → ℝ) (m : ℕ) :
    (levelBlock T m).filter (fun g => !isBarrierInstr g) =
      (List.range (2 ^ m)).flatMap fun i =>
        ((List.range m).filterMap fun j =>
            if i.testBit j = false then some (Gate.x (m - j - 1)) else none) ++
          [Gate.mcrx (2 * T m i) (List.range m) m] ++
          (List.range m).filterMap fun j =>
            if i.testBit j = false then some (Gate.x (m - j - 1)) else none := by
  unfold levelBlock
  rw [List.filter_cons]
  have hbar : (!isBarrierInstr Gate.barrier) = false := rfl
  rw [hbar, if_neg (by simp)]
  rw [filter_flatMap]
  congr 1
  funext i
  rw [List.filter_append, List.filter_append, xLoop_filter, xLoop_eq_spec]
  congr 1

theorem body_filter (T : ℕ → ℕ → ℝ) (n : ℕ) :
    (graBody T n).filter (fun g => !isBarrierInstr g) = specBody T n := by
  unfold graBody specBody
  rw [List.filter_cons]
  have hrx : (!isBarrierInstr (Gate.rx (2 * T 0 0) 0)) = true := rfl
  rw [hrx, if_pos rfl]
  rw [filter_flatMap]
  have hfun : (fun u => List.filter (fun g => !isBarrierInstr g) (levelBlock T u)) =
      fun m =>
        (List.range (2 ^ m)).flatMap fun i =>
          ((List.range m).filterMap fun j =>
              if i.testBit j = false then some (Gate.x (m - j - 1)) else none) ++
            [Gate.mcrx (2 * T m i) (List.range m) m] ++
            (List.range m).filterMap fun j =>
              if i.testBit j = false then some (Gate.x (m - j - 1)) else none :=
    funext fun m => levelBlock_filter T m
  rw [hfun]

theorem levelBlock_countP (T : ℕ → ℕ → ℝ) (m : ℕ) :
    (levelBlock T m).countP isRotGate = 2 ^ m := by
  unfold levelBlock
  rw [List.countP_cons_of_neg]
  case pa => simp [isRotGate]
  rw [countP_flatMap]
  have hone : ∀ i ∈ List.range (2 ^ m),
      ((xLoop m i ++ [Gate.mcrx (2 * T m i) (List.range m) m] ++ xLoop m i).countP isRotGate) =
        1 := by
    intro i _
    rw [List.countP_append, List.countP_append, xLoop_countP]
    simp [List.countP_cons, isRotGate]
  rw [List.map_congr_left hone]
  simp

theorem sum_pow_range' : ∀ (k s : ℕ), ((List.range' s k).map fun m => 2 ^ m).sum =
    2 ^ (s + k) - 2 ^ s := by
  intro k
  induction k with
  | zero => intro s; simp
  | succ k ih =>
    intro s
    rw [List.range'_succ, List.map_cons, List.sum_cons, ih (s + 1)]
    have h1 : (2 : ℕ) ^ (s + 1) = 2 ^ s * 2 := pow_succ 2 s
    have h2 : (2 : ℕ) ^ (s + 1 + k) = 2 ^ (s + k) * 2 := by
      rw [show s + 1 + k = s + k + 1 from by omega, pow_succ]
    have h3 : (2 : ℕ) ^ (s + (k + 1)) = 2 ^ (s + k) * 2 := by
      rw [show s + (k + 1) = s + k + 1 from by omega, pow_succ]
    have h4 : (2 : ℕ) ^ s ≤ 2 ^ (s + k) := Nat.pow_le_pow_right (by norm_num) (by omega)
    omega

theorem graBody_countP (T : ℕ → ℕ → ℝ) (n : ℕ) (hn : 1 ≤ n) :
    (graBody T n).countP isRotGate = 2 ^ n - 1 := by
  unfold graBody
  rw [List.countP_cons_of_pos]
  case pa => simp [isRotGate]
  rw [countP_flatMap]
  rw [List.map_congr_left fun m _ => levelBlock_countP T m]
  rw [sum_pow_range' (n - 1) 1]
  have he : 1 + (n - 1) = n := by omega
  rw [he]
  have h2 : (2 : ℕ) ≤ 2 ^ n := by
    calc (2 : ℕ) = 2 ^ 1 := by norm_num
    _ ≤ 2 ^ n := Nat.pow_le_pow_right (by norm_num) hn
  omega

theorem graSwaps_countP (n : ℕ) : (graSwaps n).countP isRotGate = 0 := by
  unfold graSwaps
  by_cases h : n % 2 = 0
  · rw [if_pos h]
    refine List.countP_eq_zero.mpr fun g hg => ?_
    obtain ⟨i, _, rfl⟩ := List.mem_map.mp hg
    simp [isRotGate]
  · rw [if_neg h]
    refine List.countP_eq_zero.mpr fun g hg => ?_
    obtain ⟨i, _, rfl⟩ := List.mem_map.mp hg
    simp [isRotGate]

/-- C3: for every `n ≥ 1`, the circuit built by `GRA` is the body followed by
the final swaps; stripped of barriers, the body is exactly one uncontrolled
RX by `2*T[0][0]` on qubit 0 followed, for `m = 1, ..., n-1` and
`i = 0, ..., 2^m - 1` in order, by X gates on qubit `m-j-1` for the clear
bits `j` of `i`, one multi-controlled RX by `2*T[m][i]` with controls
`0..m-1` and target `m`, and the identical X gates again; the circuit
contains exactly `2^n - 1` rotation gates. -/
theorem claim_C3 (dist : ℝ → ℝ) (a b : ℝ) (n : ℕ) (hn : 1 ≤ n) :
    (GRA n dist a b).1 = graBody (T_node dist a b) n ++ graSwaps n ∧
    (graBody (T_node dist a b) n).filter (fun g => !isBarrierInstr g) =
      specBody (T_node dist a b) n ∧
    (GRA n dist a b).1.countP isRotGate = 2 ^ n - 1 := by
  refine ⟨rfl, body_filter (T_node dist a b) n, ?_⟩
  show ((graBody (T_node dist a b) n ++ graSwaps n).countP isRotGate) = 2 ^ n - 1
  rw [List.countP_append, graBody_countP _ _ hn, graSwaps_countP, Nat.add_zero]

/-- Witness for C3 at `dist = const 1`, `a = 0`, `b = 1`, `n = 2`. -/
theorem claim_C3_witness :
    1 ≤ 2 ∧
      ((GRA 2 (fun _ => 1) 0 1).1 = graBody (T_node (fun _ => 1) 0 1) 2 ++ graSwaps 2 ∧
        (graBody (T_node (fun _ => 1) 0 1) 2).filter (fun g => !isBarrierInstr g) =
          specBody (T_node (fun _ => 1) 0 1) 2 ∧
        (GRA 2 (fun _ => 1) 0 1).1.countP isRotGate = 2 ^ 2 - 1) :=
  ⟨by decide, claim_C3 (fun _ => 1) 0 1 2 (by decide)⟩

end QHS
